import Mathlib

/-!
Shallow embedding of the fractal LSB steganography codec
(`stego` package: `FractalStego.Embed`, `FractalStego.Extract`,
`FractalStego.generateFractalPattern`, `bytesToBits`, `bitsToBytes`).

Modelling conventions:
* Go `byte` values are `Nat` (well-formedness `< 256` carried as hypotheses);
  Go `int` is `Int` or `Nat` as appropriate, with explicit `% 2^32` wherever
  the source converts to `uint32`.
* `float64` arithmetic of the escape-time iteration is modelled exactly, as
  fractions `num/den` over `Int` (`QP` below), kept unnormalised so every
  operation is plain integer arithmetic; denominators are positive at every
  value-relevant call site (image dimensions are positive there), which is
  what makes the cross-multiplied comparisons mean the rational order. The
  source's escape test `cmplx.Abs(z) > threshold` (a real square-root
  compare) is rendered root-free as `threshold < 0 ∨ threshold² < |z|²`,
  equivalent over the reals since `cmplx.Abs` is nonnegative.
* Go images are row-major RGBA pixel grids: a `width`, a `height` and a
  row-major pixel list; `bounds.Min` is the origin, as produced by the
  repository's image construction.
-/

namespace FractalStego

/-! ### Bit codec (`bytesToBits`, `bitsToBytes`) -/

/-- One byte expanded to its 8 bits, most significant first: Go's inner loop
`bits[i*8+j] = (b >> (7-j)) & 1`. -/
def byteToBits (b : Nat) : List Nat :=
  (List.range 8).map fun j => (b >>> (7 - j)) &&& 1

/-- Go `bytesToBits`: every byte of the input expanded MSB-first. -/
def bytesToBits (data : List Nat) : List Nat :=
  data.flatMap byteToBits

/-- Pack at most 8 bits (the bits of one output byte, MSB first, `j` the index
of the first one inside the byte) by OR-ing `1 << (7-j)` for each bit equal
to `1`, exactly as Go's `bytes[i/8] |= 1 << (7 - (i % 8))`. -/
def packByteAux : Nat → List Nat → Nat
  | _, [] => 0
  | j, bit :: rest => (if bit == 1 then 1 <<< (7 - j) else 0) ||| packByteAux (j + 1) rest

/-- Go `bitsToBytes`: bits packed MSB-first into `(len+7)/8` bytes, the unused
low bits of the final byte left `0`; each output byte `i/8` collects the
eight input bits `i` with that quotient. -/
def bitsToBytes : List Nat → List Nat
  | [] => []
  | b0 :: b1 :: b2 :: b3 :: b4 :: b5 :: b6 :: b7 :: rest =>
      packByteAux 0 [b0, b1, b2, b3, b4, b5, b6, b7] :: bitsToBytes rest
  | rest => [packByteAux 0 rest]

/-! ### Fractal pattern generator (`generateFractalPattern`) -/

/-- Exact fraction `num/den` over `Int`, the model of a `float64` value.
Kept unnormalised; all operations are plain integer arithmetic. -/
structure QP where
  num : Int
  den : Int
deriving DecidableEq

/-- Fraction addition: `a/b + c/d = (a*d + c*b)/(b*d)`. -/
def QP.add (a b : QP) : QP := ⟨a.num * b.den + b.num * a.den, a.den * b.den⟩

/-- Fraction subtraction: `a/b - c/d = (a*d - c*b)/(b*d)`. -/
def QP.sub (a b : QP) : QP := ⟨a.num * b.den - b.num * a.den, a.den * b.den⟩

/-- Fraction multiplication. -/
def QP.mul (a b : QP) : QP := ⟨a.num * b.num, a.den * b.den⟩

/-- Fraction division: `(a/b) / (c/d) = (a*d)/(b*c)`. -/
def QP.div (a b : QP) : QP := ⟨a.num * b.den, a.den * b.num⟩

/-- Strict order by cross multiplication; agrees with the rational order
whenever both denominators are positive, which holds at every value-relevant
call site. -/
def QP.lt (a b : QP) : Bool := decide (a.num * b.den < b.num * a.den)

/-- A natural number as a fraction. -/
def QP.ofNat (n : Nat) : QP := ⟨(n : Int), 1⟩

/-- Parameters `stego.FractalParams`: fractal type string, iteration bound
(Go `int`), escape threshold (`float64`, exact model). -/
structure FractalParams where
  type : String
  iterations : Int
  threshold : QP
deriving DecidableEq

/-- Configuration `stego.Config` (the `EmbeddingRate` field is threaded but
never consulted by this codec). -/
structure Config where
  embeddingRate : QP
  fractalParams : Option FractalParams

/-- Complex number of the escape-time iteration, exact model of Go's
`complex128`. -/
structure GoComplex where
  re : QP
  im : QP
deriving DecidableEq

/-- Go's fixed Julia constant `complex(-0.8, 0.156)`, exactly
`-4/5 + (39/250)i`. -/
def juliaC : GoComplex := ⟨⟨-4, 5⟩, ⟨39, 250⟩⟩

/-- One step of the loop body: `z = z*z + complex(-0.8, 0.156)` when the type
string equals `"Julia"`, otherwise `z = z*z + c` (Mandelbrot branch);
`(x+yi)² = (x²−y²) + (xy+yx)i`. -/
def fractalStep (params : FractalParams) (c z : GoComplex) : GoComplex :=
  if params.type == "Julia" then
    ⟨((z.re.mul z.re).sub (z.im.mul z.im)).add juliaC.re,
     ((z.re.mul z.im).add (z.im.mul z.re)).add juliaC.im⟩
  else
    ⟨((z.re.mul z.re).sub (z.im.mul z.im)).add c.re,
     ((z.re.mul z.im).add (z.im.mul z.re)).add c.im⟩

/-- Escape test `cmplx.Abs(z) > params.Threshold`, rendered root-free:
`sqrt s > t ↔ t < 0 ∨ t² < s` for the nonnegative radicand
`s = re² + im²`. -/
def escaped (z : GoComplex) (t : QP) : Bool :=
  QP.lt t ⟨0, 1⟩ || QP.lt (t.mul t) ((z.re.mul z.re).add (z.im.mul z.im))

/-- Value of Go's loop counter `iter` when the per-pixel loop exits: the
number of completed `iter++` increments. The loop breaks (without the
increment) as soon as the freshly computed `z` escapes; `fuel` is the number
of loop-guard successes still allowed. -/
def fractalIter (params : FractalParams) (c : GoComplex) : Nat → GoComplex → Nat
  | 0, _ => 0
  | fuel + 1, z =>
      let z' := fractalStep params c z
      if escaped z' params.threshold then 0
      else fractalIter params c fuel z' + 1

/-- Go `generateFractalPattern`: one Bool per pixel in row-major order
(`y` outer, `x` inner); a pixel is a carrier iff the loop ran the full
`params.Iterations` count without escaping (`iter == params.Iterations`,
compared as Go `int`s, so a negative iteration bound marks nothing). -/
def generateFractalPattern (width height : Nat) (params : FractalParams) : List Bool :=
  (List.range height).flatMap fun y =>
    (List.range width).map fun x =>
      let nx : QP := ((QP.ofNat x).div (QP.ofNat width)).mul ⟨7, 2⟩ |>.sub ⟨5, 2⟩
      let ny : QP := ((QP.ofNat y).div (QP.ofNat height)).mul ⟨2, 1⟩ |>.sub ⟨1, 1⟩
      let c : GoComplex := ⟨nx, ny⟩
      decide ((fractalIter params c params.iterations.toNat ⟨⟨0, 1⟩, ⟨0, 1⟩⟩ : Int) = params.iterations)

/-- Number of `true` entries of a mask (§4.4 `carrierCount`). -/
def carrierCount (mask : List Bool) : Nat :=
  mask.count true

/-! ### Images -/

/-- One RGBA pixel; channel values are bytes (`< 256` as a well-formedness
hypothesis where it matters). -/
structure RGBA where
  r : Nat
  g : Nat
  b : Nat
  a : Nat
deriving DecidableEq, Inhabited

/-- Row-major RGBA pixel grid standing for a Go `image.Image` whose bounds
start at the origin. -/
structure Image where
  width : Nat
  height : Nat
  pixels : List RGBA
deriving DecidableEq

/-- Pixel channel values are bytes and the pixel list fills the bounds. -/
def Image.WF (img : Image) : Prop :=
  img.pixels.length = img.width * img.height ∧
    ∀ p ∈ img.pixels, p.r < 256 ∧ p.g < 256 ∧ p.b < 256 ∧ p.a < 256

/-- Go's per-carrier write `c.B = (c.B & 0xFE) | allBits[bitPos]`: clear the
blue LSB, or in the payload bit; all other channels unchanged. -/
def setBlueLSB (p : RGBA) (bit : Nat) : RGBA :=
  { p with b := (p.b &&& 0xFE) ||| bit }

/-- Embedding pass of `Embed`: walk pixels and mask entries in row-major
order; at each `true` mask entry consume the next bit into the blue LSB; the
loop exits as soon as the bit stream is exhausted, leaving every remaining
pixel untouched. -/
def embedBits : List RGBA → List Bool → List Nat → List RGBA
  | ps, _, [] => ps
  | [], _, _ => []
  | ps, [], _ => ps
  | p :: ps, m :: ms, bit :: bits =>
      if m then setBlueLSB p bit :: embedBits ps ms bits
      else p :: embedBits ps ms (bit :: bits)

/-- Blue LSBs (`c.B & 1`) of the carrier pixels (mask `true`), in row-major
order: the bit sequence both extraction loops traverse. -/
def lsbBits : List RGBA → List Bool → List Nat
  | p :: ps, m :: ms => if m then (p.b &&& 1) :: lsbBits ps ms else lsbBits ps ms
  | _, _ => []

/-- Go `binary.BigEndian.PutUint32`: the four bytes of a `uint32`,
most significant first. -/
def putUint32 (v : Nat) : List Nat :=
  [(v >>> 24) % 256, (v >>> 16) % 256, (v >>> 8) % 256, v % 256]

/-- Go `binary.BigEndian.Uint32` on four bytes. The source ORs the shifted
bytes; on byte values (`< 256`, as produced by `bitsToBytes`) the shifted
summands occupy disjoint bit ranges, so the OR is this sum. -/
def beUint32 (bytes : List Nat) : Nat :=
  match bytes with
  | [b0, b1, b2, b3] => b0 * 2 ^ 24 + b1 * 2 ^ 16 + b2 * 2 ^ 8 + b3
  | _ => 0

/-- Zero-pad a list on the right to length `n`, the state of a Go buffer
preallocated with `make` and only partially filled. -/
def padTo (n : Nat) (l : List Nat) : List Nat :=
  l ++ List.replicate (n - l.length) 0

/-! ### `Embed` and `Extract` -/

/-- Bit stream `allBits` composed by `Embed`: the 32-bit big-endian length
field (`binary.BigEndian.PutUint32` of `uint32(len(data))`) expanded to bits,
followed by the payload bits. -/
def embedStream (data : List Nat) : List Nat :=
  bytesToBits (putUint32 (data.length % 2 ^ 32)) ++ bytesToBits data

/-- Go `FractalStego.Embed`. Fails with the source's error strings: missing
parameters, then the capacity check `width*height < 32 + len(data)*8`
(against the raw pixel count, not the carrier count); on success returns the
cover with the header-plus-payload bit stream written into the blue LSBs of
the carrier pixels in row-major order. -/
def Embed (cover : Image) (data : List Nat) (config : Config) : Except String Image :=
  match config.fractalParams with
  | none => .error "fractal parameters are required"
  | some params =>
      let width := cover.width
      let height := cover.height
      let requiredPixels := 32 + data.length * 8
      if width * height < requiredPixels then
        .error "image too small to embed data"
      else
        let pattern := generateFractalPattern width height params
        .ok ⟨width, height, embedBits cover.pixels pattern (embedStream data)⟩

/-- Header decode of `Extract`: the first (up to) 32 carrier blue LSBs packed
MSB-first into the zero-initialised 4-byte buffer `lengthBytes` (the inline
`lengthBytes[bytePos] |= (c.B & 1) << bitPos` loop is `bitsToBytes` of the
zero-padded 32-bit prefix), then read as a big-endian `uint32`. -/
def extractLength (pixels : List RGBA) (pattern : List Bool) : Nat :=
  beUint32 (bitsToBytes (padTo 32 ((lsbBits pixels pattern).take 32)))

/-- Go `FractalStego.Extract`. Fails on missing parameters, regenerates the
pattern, decodes the 32-bit big-endian length from the first 32 carrier blue
LSBs (zero bits where carriers run out), rejects `length == 0` and
`length > uint32(width*height)`, then reads the next `length*8` carrier blue
LSBs after skipping the 32 header carriers (the preallocated buffer's zero
bits standing in where carriers run out — no truncation error) and packs
them into bytes. `length*8` is computed in `uint32`, hence the `% 2^32`. -/
def Extract (img : Image) (config : Config) : Except String (List Nat) :=
  match config.fractalParams with
  | none => .error "fractal parameters are required"
  | some params =>
      let width := img.width
      let height := img.height
      let pattern := generateFractalPattern width height params
      let length := extractLength img.pixels pattern
      if length == 0 || length > (width * height) % 2 ^ 32 then
        .error "invalid data length extracted"
      else
        let dataCount := length * 8 % 2 ^ 32
        let dataBits := padTo dataCount (((lsbBits img.pixels pattern).drop 32).take dataCount)
        .ok (bitsToBytes dataBits)

end FractalStego

/-! ### Lemmas: bit codec -/

namespace FractalStego

set_option maxRecDepth 100000

/-- The eight bits of a byte, written out. -/
theorem byteToBits_eq (b : Nat) :
    byteToBits b = [(b >>> 7) &&& 1, (b >>> 6) &&& 1, (b >>> 5) &&& 1, (b >>> 4) &&& 1,
      (b >>> 3) &&& 1, (b >>> 2) &&& 1, (b >>> 1) &&& 1, b &&& 1] := rfl

theorem bytesToBits_nil : bytesToBits [] = [] := rfl

theorem bytesToBits_cons (b : Nat) (d : List Nat) :
    bytesToBits (b :: d) = byteToBits b ++ bytesToBits d := rfl

theorem bytesToBits_length (d : List Nat) : (bytesToBits d).length = 8 * d.length := by
  induction d with
  | nil => rfl
  | cons b d ih =>
      have h8 : (byteToBits b).length = 8 := rfl
      rw [bytesToBits_cons, List.length_append, ih, h8, List.length_cons]
      omega

theorem mem_byteToBits_lt_two {b x : Nat} (hx : x ∈ byteToBits b) : x < 2 := by
  simp only [byteToBits, List.mem_map, List.mem_range] at hx
  obtain ⟨j, -, rfl⟩ := hx
  have : (b >>> (7 - j)) &&& 1 = (b >>> (7 - j)) % 2 := Nat.and_one_is_mod _
  omega

theorem mem_bytesToBits_lt_two {d : List Nat} {x : Nat} (hx : x ∈ bytesToBits d) : x < 2 := by
  simp only [bytesToBits, List.mem_flatMap] at hx
  obtain ⟨b, -, hb⟩ := hx
  exact mem_byteToBits_lt_two hb

/-- Packing the eight bits of a byte back gives the byte. -/
theorem packByteAux_byteToBits (b : Nat) (hb : b < 256) : packByteAux 0 (byteToBits b) = b := by
  revert b; decide

/-- Round trip of the bit codec, bytes restricted to the `byte` range. -/
theorem bitsToBytes_bytesToBits {d : List Nat} (hd : ∀ b ∈ d, b < 256) :
    bitsToBytes (bytesToBits d) = d := by
  induction d with
  | nil => rfl
  | cons b d ih =>
      have hb : b < 256 := hd b (List.mem_cons_self b d)
      have hrest : ∀ x ∈ d, x < 256 := fun x hx => hd x (List.mem_cons_of_mem b hx)
      rw [bytesToBits_cons, byteToBits_eq]
      show packByteAux 0 [(b >>> 7) &&& 1, (b >>> 6) &&& 1, (b >>> 5) &&& 1, (b >>> 4) &&& 1,
        (b >>> 3) &&& 1, (b >>> 2) &&& 1, (b >>> 1) &&& 1, b &&& 1] :: bitsToBytes (bytesToBits d)
        = b :: d
      rw [ih hrest, ← byteToBits_eq, packByteAux_byteToBits b hb]

theorem bitsToBytes_length (bits : List Nat) :
    (bitsToBytes bits).length = (bits.length + 7) / 8 := by
  induction bits using bitsToBytes.induct with
  | case1 => rfl
  | case2 b0 b1 b2 b3 b4 b5 b6 b7 rest ih =>
      simp only [bitsToBytes, List.length_cons, ih]
      omega
  | case3 rest h1 h2 =>
      rcases rest with _ | ⟨a0, _ | ⟨a1, _ | ⟨a2, _ | ⟨a3, _ | ⟨a4, _ | ⟨a5, _ | ⟨a6, rest'⟩⟩⟩⟩⟩⟩⟩
      · exact absurd rfl h1
      · simp [bitsToBytes]
      · simp [bitsToBytes]
      · simp [bitsToBytes]
      · simp [bitsToBytes]
      · simp [bitsToBytes]
      · simp [bitsToBytes]
      · cases rest' with
        | nil => simp [bitsToBytes]
        | cons a7 rest'' => exact absurd rfl (h2 a0 a1 a2 a3 a4 a5 a6 a7 rest'')

end FractalStego

/-! ### Lemmas: embedding pass and carrier bits -/

namespace FractalStego

set_option maxRecDepth 100000

/-- The blue-channel update on a byte: the written LSB reads back, the result
is still a byte, and the upper seven bits are unchanged. -/
theorem setBlue_byte_facts :
    ∀ x < 256, ∀ bit < 2,
      ((x &&& 0xFE) ||| bit) &&& 1 = bit ∧ ((x &&& 0xFE) ||| bit) < 256 ∧
        ((x &&& 0xFE) ||| bit) / 2 = x / 2 := by decide

theorem carrierCount_nil : carrierCount [] = 0 := rfl

theorem carrierCount_cons (m : Bool) (ms : List Bool) :
    carrierCount (m :: ms) = carrierCount ms + if m then 1 else 0 := by
  cases m <;> simp [carrierCount]

theorem carrierCount_le_length (ms : List Bool) : carrierCount ms ≤ ms.length :=
  List.count_le_length true ms

theorem lsbBits_length :
    ∀ (ps : List RGBA) (ms : List Bool), ps.length = ms.length →
      (lsbBits ps ms).length = carrierCount ms := by
  intro ps
  induction ps with
  | nil =>
      intro ms h
      rw [(List.length_eq_zero.mp h.symm : ms = [])]
      rfl
  | cons p ps ih =>
      intro ms h
      cases ms with
      | nil => exact absurd h (by simp)
      | cons m ms =>
          have hlen : ps.length = ms.length := by simpa using h
          cases m <;> simp [lsbBits, carrierCount_cons, ih ms hlen]

theorem embedBits_length :
    ∀ (ps : List RGBA) (ms : List Bool) (bits : List Nat),
      (embedBits ps ms bits).length = ps.length := by
  intro ps
  induction ps with
  | nil =>
      intro ms bits
      cases ms <;> cases bits <;> rfl
  | cons p ps ih =>
      intro ms bits
      cases ms with
      | nil => cases bits <;> rfl
      | cons m ms =>
          cases bits with
          | nil => rfl
          | cons bit bits =>
              cases m <;> simp [embedBits, ih]

/-- Carrier blue LSBs after the embedding pass: the written bit stream,
followed by the untouched tail of the original carrier LSBs. -/
theorem lsbBits_embedBits :
    ∀ (ps : List RGBA) (ms : List Bool) (bits : List Nat),
      ps.length = ms.length →
      (∀ p ∈ ps, p.b < 256) →
      (∀ b ∈ bits, b < 2) →
      bits.length ≤ carrierCount ms →
      lsbBits (embedBits ps ms bits) ms = bits ++ (lsbBits ps ms).drop bits.length := by
  intro ps
  induction ps with
  | nil =>
      intro ms bits hlen _ _ hcap
      rw [(List.length_eq_zero.mp hlen.symm : ms = [])] at hcap ⊢
      rw [List.eq_nil_of_length_eq_zero (Nat.le_zero.mp hcap)]
      rfl
  | cons p ps ih =>
      intro ms bits hlen hb hbits hcap
      cases ms with
      | nil => exact absurd hlen (by simp)
      | cons m ms =>
          have hlen' : ps.length = ms.length := by simpa using hlen
          have hbp : p.b < 256 := (hb p (List.mem_cons_self p ps))
          have hb' : ∀ q ∈ ps, q.b < 256 := fun q hq => hb q (List.mem_cons_of_mem p hq)
          cases bits with
          | nil => simp [embedBits]
          | cons bit bits =>
              have hbit : bit < 2 := hbits bit (List.mem_cons_self bit bits)
              have hbits' : ∀ b ∈ bits, b < 2 := fun b hx => hbits b (List.mem_cons_of_mem bit hx)
              cases m with
              | true =>
                  have hcap' : bits.length ≤ carrierCount ms := by
                    rw [carrierCount_cons] at hcap
                    simpa using hcap
                  have hlsb : (setBlueLSB p bit).b &&& 1 = bit :=
                    (setBlue_byte_facts p.b hbp bit hbit).1
                  simp only [embedBits, if_true, lsbBits, hlsb,
                    ih ms bits hlen' hb' hbits' hcap', List.length_cons, List.drop_succ_cons,
                    List.cons_append]
              | false =>
                  have hcap' : (bit :: bits).length ≤ carrierCount ms := by
                    rw [carrierCount_cons] at hcap
                    simpa using hcap
                  simp [embedBits, lsbBits, ih ms (bit :: bits) hlen' hb' hbits hcap']

end FractalStego

namespace FractalStego

set_option maxRecDepth 100000

/-- Position `i` is a consumed carrier: its mask entry is `true` and fewer
than `streamLen` carrier positions precede it, so the embedding loop writes
its blue LSB. -/
def consumedCarrier (mask : List Bool) (streamLen i : Nat) : Prop :=
  mask.getD i false = true ∧ carrierCount (mask.take i) < streamLen

instance (mask : List Bool) (streamLen i : Nat) :
    Decidable (consumedCarrier mask streamLen i) := by
  unfold consumedCarrier
  infer_instance

/-- The embedding pass never changes red, green or alpha, and never changes
the upper seven bits of blue. -/
theorem embedBits_channels :
    ∀ (ps : List RGBA) (ms : List Bool) (bits : List Nat) (i : Nat),
      (∀ p ∈ ps, p.b < 256) →
      (∀ b ∈ bits, b < 2) →
      ((embedBits ps ms bits).getD i default).r = (ps.getD i default).r ∧
      ((embedBits ps ms bits).getD i default).g = (ps.getD i default).g ∧
      ((embedBits ps ms bits).getD i default).a = (ps.getD i default).a ∧
      ((embedBits ps ms bits).getD i default).b / 2 = (ps.getD i default).b / 2 := by
  intro ps
  induction ps with
  | nil =>
      intro ms bits i _ _
      cases ms <;> cases bits <;> exact ⟨rfl, rfl, rfl, rfl⟩
  | cons p ps ih =>
      intro ms bits i hb hbits
      have hbp : p.b < 256 := hb p (List.mem_cons_self p ps)
      have hb' : ∀ q ∈ ps, q.b < 256 := fun q hq => hb q (List.mem_cons_of_mem p hq)
      cases ms with
      | nil => cases bits <;> exact ⟨rfl, rfl, rfl, rfl⟩
      | cons m ms =>
          cases bits with
          | nil => exact ⟨rfl, rfl, rfl, rfl⟩
          | cons bit bits =>
              have hbit : bit < 2 := hbits bit (List.mem_cons_self bit bits)
              have hbits' : ∀ b ∈ bits, b < 2 :=
                fun b hx => hbits b (List.mem_cons_of_mem bit hx)
              cases m with
              | true =>
                  cases i with
                  | zero =>
                      refine ⟨rfl, rfl, rfl, ?_⟩
                      exact (setBlue_byte_facts p.b hbp bit hbit).2.2
                  | succ i =>
                      simpa [embedBits] using ih ms bits i hb' hbits'
              | false =>
                  cases i with
                  | zero => exact ⟨rfl, rfl, rfl, rfl⟩
                  | succ i =>
                      simpa [embedBits] using ih ms (bit :: bits) i hb' hbits

/-- A position that is not a consumed carrier keeps its exact cover pixel. -/
theorem embedBits_untouched :
    ∀ (ps : List RGBA) (ms : List Bool) (bits : List Nat) (i : Nat),
      (ms.getD i false = false ∨ bits.length ≤ carrierCount (ms.take i)) →
      (embedBits ps ms bits).getD i default = ps.getD i default := by
  intro ps
  induction ps with
  | nil =>
      intro ms bits i _
      cases ms <;> cases bits <;> rfl
  | cons p ps ih =>
      intro ms bits i hcond
      cases ms with
      | nil => cases bits <;> rfl
      | cons m ms =>
          cases bits with
          | nil => rfl
          | cons bit bits =>
              cases m with
              | true =>
                  cases i with
                  | zero =>
                      rcases hcond with h | h
                      · exact absurd h (by simp)
                      · simp [carrierCount_nil] at h
                  | succ i =>
                      have hcond' :
                          ms.getD i false = false ∨
                            bits.length ≤ carrierCount (ms.take i) := by
                        rcases hcond with h | h
                        · exact Or.inl (by simpa using h)
                        · refine Or.inr ?_
                          rw [List.take_succ_cons, carrierCount_cons] at h
                          simp at h
                          omega
                      simpa [embedBits] using ih ms bits i hcond'
              | false =>
                  cases i with
                  | zero => rfl
                  | succ i =>
                      have hcond' :
                          ms.getD i false = false ∨
                            (bit :: bits).length ≤ carrierCount (ms.take i) := by
                        rcases hcond with h | h
                        · exact Or.inl (by simpa using h)
                        · refine Or.inr ?_
                          rw [List.take_succ_cons, carrierCount_cons] at h
                          simpa using h
                      simpa [embedBits] using ih ms (bit :: bits) i hcond'

/-! ### Lemmas: header bytes -/

theorem putUint32_lt (v : Nat) : ∀ b ∈ putUint32 v, b < 256 := by
  intro b hb
  simp only [putUint32, List.mem_cons, List.not_mem_nil, or_false] at hb
  rcases hb with rfl | rfl | rfl | rfl <;> omega

theorem putUint32_length (v : Nat) : (putUint32 v).length = 4 := rfl

theorem beUint32_putUint32 (v : Nat) : beUint32 (putUint32 v) = v % 2 ^ 32 := by
  simp only [putUint32, beUint32]
  rw [Nat.shiftRight_eq_div_pow, Nat.shiftRight_eq_div_pow, Nat.shiftRight_eq_div_pow]
  omega

theorem padTo_of_length {n : Nat} {l : List Nat} (h : l.length = n) : padTo n l = l := by
  simp [padTo, h]

theorem embedStream_length (data : List Nat) :
    (embedStream data).length = 32 + 8 * data.length := by
  simp [embedStream, bytesToBits_length, putUint32_length]

theorem embedStream_lt_two (data : List Nat) : ∀ b ∈ embedStream data, b < 2 := by
  intro b hb
  rcases List.mem_append.mp hb with h | h
  · exact mem_bytesToBits_lt_two h
  · exact mem_bytesToBits_lt_two h

end FractalStego

/-! ### Lemmas: fractal pattern -/

namespace FractalStego

set_option maxRecDepth 100000

theorem flatMap_const_replicate {α : Type} (l : List α) (w : Nat) (v : Bool) :
    (l.flatMap fun _ => List.replicate w v) = List.replicate (l.length * w) v := by
  induction l with
  | nil => simp
  | cons a l ih =>
      rw [List.flatMap_cons, ih, List.length_cons, ← List.replicate_add]
      congr 1
      ring

theorem length_flatMap_of_const {α β : Type} (l : List α) (f : α → List β) (w : Nat)
    (hf : ∀ a ∈ l, (f a).length = w) : (l.flatMap f).length = l.length * w := by
  induction l with
  | nil => simp
  | cons a l ih =>
      rw [List.flatMap_cons, List.length_append, hf a (List.mem_cons_self a l),
        ih fun a ha => hf a (List.mem_cons_of_mem _ ha), List.length_cons]
      ring

theorem flatMap_congr {α β : Type} (l : List α) (f g : α → List β)
    (h : ∀ a ∈ l, f a = g a) : l.flatMap f = l.flatMap g := by
  induction l with
  | nil => rfl
  | cons a l ih =>
      rw [List.flatMap_cons, List.flatMap_cons, h a (List.mem_cons_self a l),
        ih fun a ha => h a (List.mem_cons_of_mem _ ha)]

theorem getD_replicate {n i : Nat} {v : Bool} (h : i < n) :
    (List.replicate n v).getD i false = v := by
  induction n generalizing i with
  | zero => omega
  | succ n ih =>
      cases i with
      | zero => rfl
      | succ i => simpa [List.replicate_succ] using ih (by omega)

theorem generateFractalPattern_length (w h : Nat) (p : FractalParams) :
    (generateFractalPattern w h p).length = h * w := by
  unfold generateFractalPattern
  rw [length_flatMap_of_const _ _ w fun y _ => by simp, List.length_range]

end FractalStego

namespace FractalStego

set_option maxRecDepth 100000

/-- With a zero iteration bound the loop body never runs, `iter = 0` equals
the bound, and every pixel is marked a carrier. -/
theorem generateFractalPattern_iterZero (w h : Nat) (p : FractalParams)
    (hit : p.iterations = 0) :
    generateFractalPattern w h p = List.replicate (h * w) true := by
  unfold generateFractalPattern
  have hall : generateFractalPattern w h p =
      (List.range h).flatMap fun _ => List.replicate w true := by
    unfold generateFractalPattern
    refine flatMap_congr _ _ _ fun y _ => ?_
    have : ∀ x ∈ List.range w,
        (fun x =>
          let nx : QP := ((QP.ofNat x).div (QP.ofNat w)).mul ⟨7, 2⟩ |>.sub ⟨5, 2⟩
          let ny : QP := ((QP.ofNat y).div (QP.ofNat h)).mul ⟨2, 1⟩ |>.sub ⟨1, 1⟩
          let c : GoComplex := ⟨nx, ny⟩
          decide ((fractalIter p c p.iterations.toNat ⟨⟨0, 1⟩, ⟨0, 1⟩⟩ : Int)
            = p.iterations)) x = (fun _ => true) x := by
      intro x _
      simp [hit, fractalIter]
    rw [List.map_congr_left this, List.map_const', List.length_range]
  rw [← generateFractalPattern.eq_def] at *
  rw [hall, flatMap_const_replicate, List.length_range]

end FractalStego

namespace FractalStego

set_option maxRecDepth 100000

/-- With the Julia branch selected, the loop never reads the pixel's complex
coordinate: the iteration count is independent of `c`. -/
theorem fractalIter_julia_const (p : FractalParams) (hty : p.type = "Julia")
    (c c' : GoComplex) :
    ∀ (n : Nat) (z : GoComplex), fractalIter p c n z = fractalIter p c' n z := by
  intro n
  have hstep : ∀ z : GoComplex, fractalStep p c z = fractalStep p c' z := by
    intro z
    simp [fractalStep, hty]
  induction n with
  | zero => intro z; rfl
  | succ n ih =>
      intro z
      simp only [fractalIter]
      rw [hstep]
      split
      · rfl
      · rw [ih]

/-- Every pixel of a Julia pattern carries the same Boolean. -/
theorem generateFractalPattern_julia_replicate (w h : Nat) (p : FractalParams)
    (hty : p.type = "Julia") :
    generateFractalPattern w h p = List.replicate (h * w)
      (decide ((fractalIter p ⟨⟨0, 1⟩, ⟨0, 1⟩⟩ p.iterations.toNat ⟨⟨0, 1⟩, ⟨0, 1⟩⟩ : Int)
        = p.iterations)) := by
  have hall : generateFractalPattern w h p =
      (List.range h).flatMap fun _ => List.replicate w
        (decide ((fractalIter p ⟨⟨0, 1⟩, ⟨0, 1⟩⟩ p.iterations.toNat ⟨⟨0, 1⟩, ⟨0, 1⟩⟩ : Int)
          = p.iterations)) := by
    unfold generateFractalPattern
    refine flatMap_congr _ _ _ fun y _ => ?_
    have : ∀ x ∈ List.range w,
        (fun x =>
          let nx : QP := ((QP.ofNat x).div (QP.ofNat w)).mul ⟨7, 2⟩ |>.sub ⟨5, 2⟩
          let ny : QP := ((QP.ofNat y).div (QP.ofNat h)).mul ⟨2, 1⟩ |>.sub ⟨1, 1⟩
          let c : GoComplex := ⟨nx, ny⟩
          decide ((fractalIter p c p.iterations.toNat ⟨⟨0, 1⟩, ⟨0, 1⟩⟩ : Int)
            = p.iterations)) x =
        (fun _ =>
          decide ((fractalIter p ⟨⟨0, 1⟩, ⟨0, 1⟩⟩ p.iterations.toNat ⟨⟨0, 1⟩, ⟨0, 1⟩⟩ : Int)
            = p.iterations)) x := by
      intro x _
      simp only []
      rw [fractalIter_julia_const p hty _ ⟨⟨0, 1⟩, ⟨0, 1⟩⟩]
    rw [List.map_congr_left this, List.map_const', List.length_range]
  rw [hall, flatMap_const_replicate, List.length_range]

/-- Any type string other than `"Julia"` takes the Mandelbrot branch, so the
whole iteration agrees with the `"Mandelbrot"` parameters. -/
theorem fractalIter_notJulia (ty : String) (its : Int) (t : QP) (hty : ty ≠ "Julia")
    (c : GoComplex) :
    ∀ (n : Nat) (z : GoComplex),
      fractalIter ⟨ty, its, t⟩ c n z = fractalIter ⟨"Mandelbrot", its, t⟩ c n z := by
  intro n
  have hbeq : (ty == "Julia") = false := beq_eq_false_iff_ne.mpr hty
  have hstep : ∀ z : GoComplex,
      fractalStep ⟨ty, its, t⟩ c z = fractalStep ⟨"Mandelbrot", its, t⟩ c z := by
    intro z
    simp [fractalStep, hbeq]
  induction n with
  | zero => intro z; rfl
  | succ n ih =>
      intro z
      simp only [fractalIter]
      rw [hstep]
      split
      · rfl
      · rw [ih]

end FractalStego

/-! ### Lemmas: Embed and Extract -/

namespace FractalStego

set_option maxRecDepth 100000

/-- When parameters are present and the raw pixel count passes the source's
capacity check, `Embed` returns the embedded image. -/
theorem Embed_eq_ok (cover : Image) (data : List Nat) (params : FractalParams)
    (config : Config) (hp : config.fractalParams = some params)
    (hfit : 32 + data.length * 8 ≤ cover.width * cover.height) :
    Embed cover data config = .ok ⟨cover.width, cover.height,
      embedBits cover.pixels
        (generateFractalPattern cover.width cover.height params)
        (embedStream data)⟩ := by
  simp only [Embed, hp]
  rw [if_neg (by omega)]

/-- Full success path of `Extract` on an embedded image, the engine of the
round-trip theorem. -/
theorem Extract_embedded (cover : Image) (data : List Nat) (params : FractalParams)
    (config : Config)
    (hp : config.fractalParams = some params)
    (hlen : cover.pixels.length = cover.width * cover.height)
    (hblue : ∀ p ∈ cover.pixels, p.b < 256)
    (hbytes : ∀ b ∈ data, b < 256)
    (hne : data ≠ [])
    (hsize : cover.width * cover.height < 2 ^ 32)
    (hcap : 32 + 8 * data.length ≤
      carrierCount (generateFractalPattern cover.width cover.height params)) :
    Extract ⟨cover.width, cover.height,
      embedBits cover.pixels
        (generateFractalPattern cover.width cover.height params)
        (embedStream data)⟩ config = .ok data := by
  have hmask : (generateFractalPattern cover.width cover.height params).length =
      cover.height * cover.width := generateFractalPattern_length _ _ _
  set mask := generateFractalPattern cover.width cover.height params with hmaskdef
  have hlenpm : cover.pixels.length = mask.length := by rw [hlen, hmask]; ring
  have hcarrier_le : carrierCount mask ≤ cover.width * cover.height := by
    have := carrierCount_le_length mask
    omega
  have hstream : (embedStream data).length = 32 + 8 * data.length :=
    embedStream_length data
  have hkey : lsbBits (embedBits cover.pixels mask (embedStream data)) mask =
      embedStream data ++ (lsbBits cover.pixels mask).drop (embedStream data).length :=
    lsbBits_embedBits cover.pixels mask (embedStream data) hlenpm hblue
      (embedStream_lt_two data) (by omega)
  have hA32 : (bytesToBits (putUint32 (data.length % 2 ^ 32))).length = 32 := by
    rw [bytesToBits_length, putUint32_length]
  have hB : (bytesToBits data).length = 8 * data.length := bytesToBits_length data
  have hdne : data.length ≠ 0 := fun h0 => hne (List.eq_nil_of_length_eq_zero h0)
  have hdlt : data.length < 2 ^ 32 := by omega
  have hsplit : lsbBits (embedBits cover.pixels mask (embedStream data)) mask =
      bytesToBits (putUint32 (data.length % 2 ^ 32)) ++
        (bytesToBits data ++ (lsbBits cover.pixels mask).drop (embedStream data).length) := by
    rw [hkey]
    simp only [embedStream, List.append_assoc]
  have htake : (lsbBits (embedBits cover.pixels mask (embedStream data)) mask).take 32 =
      bytesToBits (putUint32 (data.length % 2 ^ 32)) := by
    rw [hsplit, List.take_left' hA32]
  have hdrop : (lsbBits (embedBits cover.pixels mask (embedStream data)) mask).drop 32 =
      bytesToBits data ++ (lsbBits cover.pixels mask).drop (embedStream data).length := by
    rw [hsplit, List.drop_left' hA32]
  have hL : extractLength
      (embedBits cover.pixels mask (embedStream data)) mask = data.length := by
    unfold extractLength
    rw [htake, padTo_of_length hA32,
      bitsToBytes_bytesToBits (putUint32_lt (data.length % 2 ^ 32)),
      beUint32_putUint32]
    omega
  have hmod : (cover.width * cover.height) % 2 ^ 32 = cover.width * cover.height :=
    Nat.mod_eq_of_lt hsize
  simp only [Extract, hp]
  rw [← hmaskdef, hL, hmod]
  have hcond : (data.length == 0 || decide (data.length > cover.width * cover.height)) = false := by
    simp only [Bool.or_eq_false_iff, beq_eq_false_iff_ne, ne_eq, decide_eq_false_iff_not, not_lt]
    exact ⟨hdne, by omega⟩
  rw [hcond, if_neg (by simp)]
  have h8 : data.length * 8 % 2 ^ 32 = 8 * data.length := by omega
  rw [h8, hdrop, List.take_left' hB, padTo_of_length hB, bitsToBytes_bytesToBits hbytes]

end FractalStego

/-! ### Concrete fixtures -/

namespace FractalStego

set_option maxRecDepth 1000000

/-- Mandelbrot parameters with a zero iteration bound (all-true mask). -/
def zeroIterParams : FractalParams := ⟨"Mandelbrot", 0, ⟨2, 1⟩⟩

/-- Configuration carrying `zeroIterParams`. -/
def zeroIterConfig : Config := ⟨⟨1, 2⟩, some zeroIterParams⟩

/-- Mandelbrot parameters with one iteration and threshold 2. -/
def oneIterParams : FractalParams := ⟨"Mandelbrot", 1, ⟨2, 1⟩⟩

/-- Configuration carrying `oneIterParams`. -/
def oneIterConfig : Config := ⟨⟨1, 2⟩, some oneIterParams⟩

/-- A 7×6 uniform cover image. -/
def cover42 : Image := ⟨7, 6, List.replicate 42 ⟨1, 2, 3, 255⟩⟩

/-- A 6×6 uniform black cover image. -/
def cover36 : Image := ⟨6, 6, List.replicate 36 ⟨0, 0, 0, 255⟩⟩

/-! ### Claim theorems -/

/-- C1 counterexample: with an all-true 42-entry mask the empty payload's 32
required bits fit the carrier count and `Embed` succeeds, yet `Extract`
rejects the decoded zero length instead of returning the payload. -/
theorem roundTrip_fails_on_empty_payload :
    32 + 8 * ([] : List Nat).length ≤
      carrierCount (generateFractalPattern cover42.width cover42.height zeroIterParams) ∧
    (Embed cover42 [] zeroIterConfig >>= fun out => Extract out zeroIterConfig) =
      .error "invalid data length extracted" :=
  ⟨by decide, by rfl⟩

/-- C1 (amended): the round trip returns the payload exactly for every
well-formed cover, parameters, and nonempty payload whose required bits fit
the mask's carrier count, on images of fewer than `2^32` pixels. -/
theorem roundTrip_extract_embed (cover : Image) (data : List Nat)
    (params : FractalParams) (config : Config)
    (hp : config.fractalParams = some params)
    (hwf : cover.WF)
    (hbytes : ∀ b ∈ data, b < 256)
    (hne : data ≠ [])
    (hsize : cover.width * cover.height < 2 ^ 32)
    (hcap : 32 + 8 * data.length ≤
      carrierCount (generateFractalPattern cover.width cover.height params)) :
    (Embed cover data config >>= fun out => Extract out config) = .ok data := by
  obtain ⟨hlen, hch⟩ := hwf
  have hblue : ∀ p ∈ cover.pixels, p.b < 256 := fun p hp' => (hch p hp').2.2.1
  have hmask : (generateFractalPattern cover.width cover.height params).length =
      cover.height * cover.width := generateFractalPattern_length _ _ _
  have hcle := carrierCount_le_length (generateFractalPattern cover.width cover.height params)
  have hfit : 32 + data.length * 8 ≤ cover.width * cover.height := by
    have hcw : cover.height * cover.width = cover.width * cover.height := Nat.mul_comm _ _
    omega
  rw [Embed_eq_ok cover data params config hp hfit]
  show Extract _ config = .ok data
  exact Extract_embedded cover data params config hp hlen hblue hbytes hne hsize hcap

/-- C1 witness: a concrete one-byte payload round-trips through a 7×6 cover
with the all-true zero-iteration mask. -/
theorem roundTrip_extract_embed_witness :
    (Embed cover42 [65] zeroIterConfig >>= fun out => Extract out zeroIterConfig) =
      .ok [65] :=
  roundTrip_extract_embed cover42 [65] zeroIterParams zeroIterConfig rfl
    ⟨rfl, by decide⟩ (by decide) (by decide) (by decide) (by decide)

end FractalStego

namespace FractalStego

set_option maxRecDepth 1000000

/-- C2: the source checks the raw pixel count `width*height`, not the carrier
count. On a 6×6 cover with one Mandelbrot iteration the mask has only 27
carriers — fewer than the 32 bits an empty payload requires — yet `Embed`
succeeds instead of failing with the capacity error. -/
theorem embed_capacity_uses_raw_pixel_count :
    carrierCount (generateFractalPattern cover36.width cover36.height oneIterParams) = 27 ∧
    27 < 32 + 8 * ([] : List Nat).length ∧
    (Embed cover36 [] oneIterConfig).isOk = true :=
  ⟨by decide, by decide, by rfl⟩

/-- Stego image for the truncation scenario: the all-true 6×6 mask offers 36
carriers, the header declares a 1-byte payload (40 bits needed in total), and
the four carrier bits that exist after the header are all `1`. -/
def truncatedStego : Image :=
  ⟨6, 6, List.replicate 31 ⟨0, 0, 0, 255⟩ ++ List.replicate 5 ⟨0, 0, 1, 255⟩⟩

/-- C3: when carriers run out before `length*8` payload bits are read,
`Extract` does not fail: it zero-pads the preallocated buffer and returns a
byte sequence (here `[240]` = the four available `1` bits padded with four
`0` bits). -/
theorem extract_truncation_returns_zero_padded :
    extractLength truncatedStego.pixels
      (generateFractalPattern truncatedStego.width truncatedStego.height zeroIterParams) = 1 ∧
    carrierCount (generateFractalPattern truncatedStego.width truncatedStego.height
      zeroIterParams) < 32 + 8 * 1 ∧
    Extract truncatedStego zeroIterConfig = .ok [240] :=
  ⟨by rfl, by decide, by rfl⟩

end FractalStego

namespace FractalStego

set_option maxRecDepth 1000000

/-- C4: on success, `Embed` preserves red, green, alpha and the upper seven
bits of blue at every pixel, and any position that is not a consumed carrier
keeps its exact cover pixel. -/
theorem embed_channel_isolation (cover : Image) (data : List Nat)
    (params : FractalParams) (config : Config) (out : Image)
    (hp : config.fractalParams = some params)
    (hwf : cover.WF)
    (hok : Embed cover data config = .ok out) :
    ∀ i, i < cover.pixels.length →
      ((out.pixels.getD i default).r = (cover.pixels.getD i default).r ∧
       (out.pixels.getD i default).g = (cover.pixels.getD i default).g ∧
       (out.pixels.getD i default).a = (cover.pixels.getD i default).a ∧
       (out.pixels.getD i default).b / 2 = (cover.pixels.getD i default).b / 2) ∧
      (¬ consumedCarrier (generateFractalPattern cover.width cover.height params)
          (embedStream data).length i →
        out.pixels.getD i default = cover.pixels.getD i default) := by
  intro i _
  have hblue : ∀ p ∈ cover.pixels, p.b < 256 := fun p hp' => (hwf.2 p hp').2.2.1
  simp only [Embed, hp] at hok
  split at hok
  · exact absurd hok (by simp)
  · have hout : out = ⟨cover.width, cover.height,
        embedBits cover.pixels
          (generateFractalPattern cover.width cover.height params)
          (embedStream data)⟩ := by
      injection hok with h
      exact h.symm
    subst hout
    constructor
    · exact
        let h := embedBits_channels cover.pixels
          (generateFractalPattern cover.width cover.height params)
          (embedStream data) i hblue (embedStream_lt_two data)
        ⟨h.1, h.2.1, h.2.2.1, h.2.2.2⟩
    · intro hnc
      refine embedBits_untouched cover.pixels
        (generateFractalPattern cover.width cover.height params)
        (embedStream data) i ?_
      unfold consumedCarrier at hnc
      rcases hmv : (generateFractalPattern cover.width cover.height params).getD i false with _ | _
      · exact Or.inl rfl
      · refine Or.inr ?_
        rw [hmv] at hnc
        exact Nat.le_of_not_lt fun hr => hnc ⟨rfl, hr⟩

/-- Cover for the channel-isolation witness. -/
def isoCover : Image := ⟨6, 6, List.replicate 36 ⟨1, 2, 3, 255⟩⟩

/-- The image `Embed` produces from `isoCover` with an empty payload and the
zero-iteration mask: the 32 header bits are all zero, so the first 32 blue
channels drop from 3 to 2. -/
def isoOut : Image :=
  ⟨6, 6, List.replicate 32 ⟨1, 2, 2, 255⟩ ++ List.replicate 4 ⟨1, 2, 3, 255⟩⟩

/-- C4 witness: the theorem applied to the concrete 6×6 embedding at pixel 0. -/
theorem embed_channel_isolation_witness :
    Embed isoCover [] zeroIterConfig = .ok isoOut ∧
    (isoOut.pixels.getD 0 default).b / 2 = (isoCover.pixels.getD 0 default).b / 2 :=
  ⟨by rfl,
    ((embed_channel_isolation isoCover [] zeroIterParams zeroIterConfig isoOut rfl
      ⟨rfl, by decide⟩ (by rfl)) 0 (by decide)).1.2.2.2⟩

end FractalStego

namespace FractalStego

set_option maxRecDepth 1000000

/-- C5: the bit codec round-trips every byte sequence, expands to exactly
`8×len` bits, and packs any bit sequence into `⌈len/8⌉` bytes. -/
theorem bitCodec_roundtrip_and_lengths (d bits : List Nat) (hd : ∀ b ∈ d, b < 256) :
    bitsToBytes (bytesToBits d) = d ∧
    (bytesToBits d).length = 8 * d.length ∧
    (bitsToBytes bits).length = (bits.length + 7) / 8 :=
  ⟨bitsToBytes_bytesToBits hd, bytesToBits_length d, bitsToBytes_length bits⟩

/-- C5 witness: the codec laws evaluated on concrete byte and bit lists. -/
theorem bitCodec_roundtrip_and_lengths_witness :
    bitsToBytes (bytesToBits [202, 1]) = [202, 1] ∧
    (bytesToBits [202, 1]).length = 8 * [202, 1].length ∧
    (bitsToBytes [1, 1, 1]).length = ([1, 1, 1].length + 7) / 8 :=
  bitCodec_roundtrip_and_lengths [202, 1] [1, 1, 1] (by decide)

/-- C6: with parameters present, `Extract` fails with the invalid-length
error exactly when the decoded 32-bit big-endian header is zero or exceeds
the pixel count `uint32(width*height)`. -/
theorem extract_invalidLength_iff (img : Image) (config : Config)
    (params : FractalParams) (hp : config.fractalParams = some params) :
    (Extract img config = .error "invalid data length extracted" ↔
      extractLength img.pixels (generateFractalPattern img.width img.height params) = 0 ∨
        (img.width * img.height) % 2 ^ 32 <
          extractLength img.pixels (generateFractalPattern img.width img.height params)) := by
  simp only [Extract, hp]
  split
  next h =>
      simp only [Bool.or_eq_true, beq_iff_eq, decide_eq_true_eq] at h
      exact ⟨fun _ => h, fun _ => rfl⟩
  next h =>
      simp only [Bool.or_eq_true, beq_iff_eq, decide_eq_true_eq] at h
      push_neg at h
      constructor
      · intro hcontra
        exact absurd hcontra (by simp)
      · intro hdisj
        rcases hdisj with h0 | hbig
        · exact absurd h0 h.1
        · omega

/-- C6 witness: an all-zero image decodes length 0 and is rejected. -/
theorem extract_invalidLength_iff_witness :
    Extract cover36 zeroIterConfig = .error "invalid data length extracted" :=
  (extract_invalidLength_iff cover36 zeroIterConfig zeroIterParams rfl).mpr
    (Or.inl (by decide))

/-- C7: a zero iteration bound marks every pixel of a positive-size image as
a carrier. -/
theorem generateMask_iterations_zero (w h : Nat) (params : FractalParams)
    (hw : 0 < w) (hh : 0 < h) (hit : params.iterations = 0) :
    generateFractalPattern w h params = List.replicate (w * h) true := by
  rw [generateFractalPattern_iterZero w h params hit, Nat.mul_comm]

/-- C7 witness: the all-true 2×3 mask. -/
theorem generateMask_iterations_zero_witness :
    generateFractalPattern 2 3 zeroIterParams = List.replicate (2 * 3) true :=
  generateMask_iterations_zero 2 3 zeroIterParams (by decide) (by decide) rfl

/-- Configuration with absent fractal parameters. -/
def noParamsConfig : Config := ⟨⟨1, 2⟩, none⟩

/-- C8: with absent parameters both operations fail with the
missing-parameters error and return no image and no bytes. -/
theorem missing_params_rejected (cover img : Image) (data : List Nat)
    (config : Config) (hp : config.fractalParams = none) :
    Embed cover data config = .error "fractal parameters are required" ∧
    Extract img config = .error "fractal parameters are required" := by
  constructor
  · simp [Embed, hp]
  · simp [Extract, hp]

/-- C8 witness: the rejection on concrete inputs. -/
theorem missing_params_rejected_witness :
    Embed cover36 [1] noParamsConfig = .error "fractal parameters are required" ∧
    Extract cover36 noParamsConfig = .error "fractal parameters are required" :=
  missing_params_rejected cover36 cover36 [1] noParamsConfig rfl

/-- C9: any fractal-type string other than `"Julia"` produces exactly the
Mandelbrot mask. -/
theorem unrecognized_variant_is_mandelbrot (w h : Nat) (ty : String) (its : Int)
    (t : QP) (hty : ty ≠ "Julia") :
    generateFractalPattern w h ⟨ty, its, t⟩ =
      generateFractalPattern w h ⟨"Mandelbrot", its, t⟩ := by
  unfold generateFractalPattern
  refine flatMap_congr _ _ _ fun y _ => ?_
  refine List.map_congr_left fun x _ => ?_
  simp only []
  rw [fractalIter_notJulia ty its t hty]

/-- C9 witness: an unrecognized string agrees with Mandelbrot on a 2×2 mask. -/
theorem unrecognized_variant_is_mandelbrot_witness :
    generateFractalPattern 2 2 ⟨"Spiral", 1, ⟨2, 1⟩⟩ =
      generateFractalPattern 2 2 ⟨"Mandelbrot", 1, ⟨2, 1⟩⟩ :=
  unrecognized_variant_is_mandelbrot 2 2 "Spiral" 1 ⟨2, 1⟩ (by decide)

/-- C10: the Julia recurrence never reads the pixel coordinate, so the Julia
mask is constant: any two in-range positions hold the same Boolean. -/
theorem julia_mask_constant (w h : Nat) (params : FractalParams)
    (hw : 0 < w) (hh : 0 < h) (hty : params.type = "Julia")
    (i j : Nat) (hi : i < w * h) (hj : j < w * h) :
    (generateFractalPattern w h params).getD i false =
      (generateFractalPattern w h params).getD j false := by
  rw [generateFractalPattern_julia_replicate w h params hty]
  have hcw : h * w = w * h := Nat.mul_comm h w
  rw [getD_replicate (by omega), getD_replicate (by omega)]

/-- Julia parameters for the constancy witness. -/
def juliaParams : FractalParams := ⟨"Julia", 1, ⟨2, 1⟩⟩

/-- C10 witness: two corners of a 2×2 Julia mask agree. -/
theorem julia_mask_constant_witness :
    (generateFractalPattern 2 2 juliaParams).getD 0 false =
      (generateFractalPattern 2 2 juliaParams).getD 3 false :=
  julia_mask_constant 2 2 juliaParams (by decide) (by decide) rfl 0 3 (by decide) (by decide)

end FractalStego
